import Mathlib

/-!
Verification of the SNPsea statistical engine (src/src/data.cpp, src/src/common.h).

Shallow embedding conventions:
* Eigen double vectors/matrices are embedded over `ℚ` (exact arithmetic); a
  matrix is represented by its list of columns.
* `ulong` (64-bit unsigned) arithmetic is embedded as `ℕ` with explicit
  `% 2^64` at the places where wraparound matters.
* C++ loops with a data-dependent trip count are embedded with an explicit
  fuel argument that is always instantiated large enough to cover the real
  iteration count (each such place is commented).
-/

namespace Snpsea

/-! ## Batch iteration schedule — `iterations` in common.h lines 39-52

The C++ loop is
`while (sum + start * 2 < max) { start *= 2; result.push_back(start); sum += start; }`
after `result.push_back(start); sum = start; max = std::max(start, max);`,
followed by `result.push_back(max - sum)`.

`iterLoop gas start sum m` embeds the `while` loop; `gas` is fuel.  Each real
iteration adds `2*start ≥ 2` to `sum` while `sum < m`, so at most `m / 2`
iterations happen and fuel `m` is always sufficient when `start ≥ 1` (the
program only ever calls `iterations 100 max_iterations`).  With `start = 0`
and `sum < m` the C++ loop does not terminate; the model then exhausts fuel. -/
def iterLoop : ℕ → ℕ → ℕ → ℕ → List ℕ
  | 0, _, sum, m => [m - sum]
  | gas + 1, start, sum, m =>
    if sum + start * 2 < m then
      (start * 2) :: iterLoop gas (start * 2) (sum + start * 2) m
    else
      [m - sum]

/-- `iterations(start, max)` from common.h lines 39-52. -/
def iterations (start m : ℕ) : List ℕ :=
  start :: iterLoop (max start m) start start (max start m)

/-! ## Permutation scheduler — `calculate_pvalues` in data.cpp lines 1099-1208

Per column, the scheduler draws batches whose sizes come from
`iterations(100, max_iterations)`; each batch adds the number of null draws
scoring `≥ user_score` to `nulls_observed` and the batch size to
`nulls_tested`, stopping once `nulls_observed ≥ min_observations`.
The null draws are abstracted by the oracle `exceed : ℕ → Bool` telling
whether the t-th draw overall scores at least `user_score` (the OpenMP
threads only partition a batch; the aggregate count per batch is the same). -/
def runColumnGo (exceed : ℕ → Bool) (minObs : ℕ) :
    List ℕ → ℕ → ℕ → ℕ × ℕ
  | [], obs, tested => (obs, tested)
  | c :: rest, obs, tested =>
    let obs2 := obs + ((List.range c).filter (fun i => exceed (tested + i))).length
    let tested2 := tested + c
    if minObs ≤ obs2 then (obs2, tested2)
    else runColumnGo exceed minObs rest obs2 tested2

/-- The per-column emission of `calculate_pvalues` (data.cpp lines 1135-1207):
result is `(pvalue, nulls_observed, nulls_tested)`.  The `user_score ≤ 0`
short-circuit (lines 1140-1147) emits `(1.0, 0, 0)`. -/
def calculate_pvalues_column (userScore : ℚ) (exceed : ℕ → Bool)
    (minObs maxIter : ℕ) : ℚ × ℕ × ℕ :=
  if userScore ≤ 0 then (1, 0, 0)
  else
    let ot := runColumnGo exceed minObs (iterations 100 maxIter) 0 0
    (((ot.1 : ℚ) + 1) / ((ot.2 : ℚ) + 1), ot.1, ot.2)

/-! ## SNP → geneset resolution — `snp_geneset` in data.cpp lines 354-383

The interval tree is abstracted by the query function
`query : ℕ → ℕ → List ℕ` (`findOverlapping(start, stop)` returning the gene
row-indices).  Coordinates are `ulong`, so the expanded low bound
`std::max(1UL, snp_interval.start - slop)` computes `start - slop` modulo
`2 ^ 64` before taking the max. -/
def U64 : ℕ := 2 ^ 64

/-- `ulong` subtraction `a - b` (wrapping), for `a b < 2^64`. -/
def wsub (a b : ℕ) : ℕ := (a + U64 - b) % U64

structure GenomicInterval where
  start : ℕ
  stop : ℕ

/-- `snp_geneset` (data.cpp lines 354-383): query the exact interval; if and
only if that returns no genes, query once more with the slop-expanded
interval, whose low end is `std::max(1UL, start - slop)` in `ulong`
arithmetic. -/
def snp_geneset (query : ℕ → ℕ → List ℕ) (iv : GenomicInterval) (slop : ℕ) :
    List ℕ :=
  let exact := query iv.start iv.stop
  if exact.length = 0 then
    query (max 1 (wsub iv.start slop)) ((iv.stop + slop) % U64)
  else
    exact

/-- Modelled from the spec: the slop fallback with the low end actually
clamped at genome coordinate 1 ("expand the query by `slop` on each side
(clamped at genome coordinate 1 on the low end)"), i.e. with truncating
rather than wrapping subtraction.  Used to exhibit the divergence of the
code from this intent. -/
def snp_geneset_clamped (query : ℕ → ℕ → List ℕ) (iv : GenomicInterval)
    (slop : ℕ) : List ℕ :=
  let exact := query iv.start iv.stop
  if exact.length = 0 then
    query (max 1 (iv.start - slop)) (iv.stop + slop)
  else
    exact

/-! ## Merging of user SNPs — `merge_user_snps` in data.cpp lines 639-707

`mergeUnionF` embeds `std::set_union` on two sorted ranges (fuel-structural;
fuel `xs.length + ys.length` is exactly the maximal number of comparisons).
The outer/inner double loop over `snp_names` (a `std::set`, i.e. a sorted
duplicate-free list) is embedded as two folds; `genesets` is the map
`snp name → geneset` (`none` when the SNP resolved to no genes). -/
def mergeUnionF : ℕ → List ℕ → List ℕ → List ℕ
  | 0, xs, ys => xs ++ ys
  | _ + 1, [], ys => ys
  | _ + 1, x :: xs, [] => x :: xs
  | fuel + 1, x :: xs, y :: ys =>
    if x < y then x :: mergeUnionF fuel xs (y :: ys)
    else if y < x then y :: mergeUnionF fuel (x :: xs) ys
    else x :: mergeUnionF fuel xs ys

/-- `std::set_union` of two sorted ranges (data.cpp lines 675-680). -/
def mergeUnion (xs ys : List ℕ) : List ℕ := mergeUnionF (xs.length + ys.length) xs ys

/-- `std::sort` ascending on a geneset (data.cpp lines 662, 672). -/
def sortGenes (l : List ℕ) : List ℕ := List.insertionSort (· ≤ ·) l

/-- State of the inner `for (auto b : snp_names)` loop: the comma-joined
locus label, the running (sorted) geneset of the anchor `a`, and the set of
already-merged SNP names. -/
structure MergeState where
  label : String
  genes : List ℕ
  merged : List String

/-- One iteration of the inner loop of `merge_user_snps`
(data.cpp lines 666-688). -/
def mergeInnerStep (genesets : String → Option (List ℕ)) (a : String)
    (st : MergeState) (b : String) : MergeState :=
  if a = b then st
  else
    match genesets b with
    | none => st
    | some gb0 =>
      if b ∈ st.merged then st
      else
        let gb := sortGenes gb0
        let u := mergeUnion st.genes gb
        if u.length < st.genes.length + gb.length then
          { label := st.label ++ "," ++ b
            genes := u
            merged := a :: b :: st.merged }
        else st

/-- One iteration of the outer loop of `merge_user_snps`
(data.cpp lines 657-698): accumulator is the output association list
(`new_snp_names` / `new_genesets`) and the `merged_snps` set. -/
def mergeOuterStep (genesets : String → Option (List ℕ)) (names : List String)
    (acc : List (String × List ℕ) × List String) (a : String) :
    List (String × List ℕ) × List String :=
  match genesets a with
  | none => acc
  | some ga0 =>
    if a ∈ acc.2 then acc
    else
      let st0 : MergeState := ⟨a, sortGenes ga0, acc.2⟩
      let st := names.foldl (mergeInnerStep genesets a) st0
      (acc.1 ++ [(st.label, st.genes)], st.merged)

/-- `merge_user_snps` (data.cpp lines 639-707): the output loci as an
association list `locus label → merged geneset`.  `names` is the iteration
order of the `std::set snp_names` (sorted, duplicate-free). -/
def merge_user_snps (names : List String)
    (genesets : String → Option (List ℕ)) : List (String × List ℕ) :=
  (names.foldl (mergeOuterStep genesets names) ([], [])).1

/-- The property claimed for the merge result: no two distinct output loci
share a gene row-index. -/
def lociPairwiseDisjoint (out : List (String × List ℕ)) : Prop :=
  out.Pairwise (fun p q => ∀ g, g ∈ p.2 → g ∉ q.2)

/-! ## Percentile ranking — `rankdata` in common.h lines 281-310

The C++ makes `(index, value)` pairs, sorts them descending by value
(`argsort_desc`), then walks runs of tied values, assigning each member of a
run starting at sorted position `i` with length `reps` the average rank
`(2 i + reps - 1) / 2 + 1`.  `rankWalkF` embeds the walk (fuel-structural;
the walk consumes at least one pair per step, so fuel `l.length` suffices).
The sort is embedded with the stable `insertionSort`; the rank vector is
independent of how the sort orders ties. -/
def rankWalkF : ℕ → List (ℕ × ℚ) → ℕ → List (ℕ × ℚ)
  | 0, _, _ => []
  | _ + 1, [], _ => []
  | fuel + 1, (j, v) :: rest, i =>
    let run := rest.takeWhile (fun p => p.2 == v)
    let reps := run.length + 1
    let rank : ℚ := ((2 * i + reps - 1 : ℕ) : ℚ) / 2 + 1
    (j, rank) :: (run.map (fun p => (p.1, rank))
      ++ rankWalkF fuel (rest.dropWhile (fun p => p.2 == v)) (i + reps))

/-- `rankdata` (common.h lines 281-310): the vector of average descending
ranks, indexed by original position. -/
def rankdata (x : List ℚ) : List ℚ :=
  let sorted := List.insertionSort (fun a b : ℕ × ℚ => b.2 ≤ a.2) x.enum
  let ranks := rankWalkF sorted.length sorted 0
  (List.range x.length).map (fun j => (ranks.lookup j).getD 0)

/-- The quantitative-mode ranking step (data.cpp lines 109-112):
each column is replaced by `rankdata(col) / _nrows`, where `_nrows` is the
effective row count set by `read_bed_interval_tree` (data.cpp line 510):
matrix rows minus matrix genes absent from the interval file. -/
def rank_columns (cols : List (List ℚ)) (nrowsEff : ℕ) : List (List ℚ) :=
  cols.map (fun col => (rankdata col).map (· / (nrowsEff : ℚ)))

/-! ## Binary-mode caches — data.cpp lines 87-94, common.h lines 313-322 -/

/-- `is_binary` (common.h lines 313-322) applied to one column. -/
def is_binary (col : List ℚ) : Bool := col.all (fun v => v == 0 || v == 1)

/-- `_binary_sums = _gene_matrix.colwise().sum()` (data.cpp line 92). -/
def binary_sums (cols : List (List ℚ)) : List ℚ := cols.map List.sum

/-- `_binary_probs = _binary_sums / _nrows` (data.cpp line 93); `_nrows` is
the effective row count (see `rank_columns`). -/
def binary_probs (cols : List (List ℚ)) (nrowsEff : ℕ) : List ℚ :=
  (binary_sums cols).map (· / (nrowsEff : ℚ))

/-- Number of nonzero rows of a column (what the spec says `sum[c]` is). -/
def countNonzero (col : List ℚ) : ℕ := (col.filter (fun v => !(v == 0))).length

/-! ## Conditioning — `condition` in data.cpp lines 836-870 and
`removeColumns` in common.h lines 253-264

A column of the R-row matrix is `Col R := Fin R → ℚ`; the matrix is its list
of columns.  For each condition column name (in the iteration order of the
`std::set`), the code captures `b = matrix.col(col_index)` (an eager copy)
and subtracts `(a·b / b·b) · b` from every column `a` of the current matrix,
including the condition columns themselves; afterwards the condition columns
are removed from the matrix and the column-name list. -/
abbrev Col (R : ℕ) := Fin R → ℚ

/-- Eigen `a.dot(b)`. -/
def dot {R : ℕ} (a b : Col R) : ℚ := ∑ i, a i * b i

/-- One pass of the outer loop of `condition` (data.cpp lines 852-859):
subtract from every column its projection onto `b`. -/
def conditionPass {R : ℕ} (b : Col R) (M : List (Col R)) : List (Col R) :=
  M.map (fun a => a - (dot a b / dot b b) • b)

/-- All passes of `condition`, one per condition-column index, each capturing
`b` from the current matrix state. -/
def conditionAll {R : ℕ} : List (Col R) → List ℕ → List (Col R)
  | M, [] => M
  | M, i :: rest => conditionAll (conditionPass (M.getD i 0) M) rest

/-- The sequence of captured `b` vectors (`const auto b = VectorXd(...)`,
data.cpp line 852), one per pass, each read from the current matrix state. -/
def stageVecs {R : ℕ} : List (Col R) → List ℕ → List (Col R)
  | _, [] => []
  | M, i :: rest => M.getD i 0 :: stageVecs (conditionPass (M.getD i 0) M) rest

/-- `removeColumns` (common.h lines 253-264) and the matching column-name
erasure (data.cpp lines 863-867): keep the entries whose index is not in
`idxs`, preserving order. -/
def removeColumns {α : Type} (idxs : List ℕ) (l : List α) : List α :=
  (l.enum.filter (fun p => decide (p.1 ∉ idxs))).map Prod.snd

/-- `std::find` position of a name in the column names (data.cpp lines
847-848): first index, or `colNames.length` when absent. -/
def condIdx (colNames : List String) (name : String) : ℕ := colNames.indexOf name

/-- `condition` (data.cpp lines 836-870): condition on the named columns (in
the given iteration order of the `std::set _condition_names`), then drop
those columns from the matrix and from the column names. -/
def condition {R : ℕ} (M : List (Col R)) (colNames : List String)
    (condNames : List String) : List (Col R) × List String :=
  let idxs := condNames.map (condIdx colNames)
  (removeColumns idxs (conditionAll M idxs), removeColumns idxs colNames)

/-! ## Quantitative single scoring — `score_quantitative_single` in
data.cpp lines 1003-1021

The score adds, per geneset with minimal percentile `p < 1`,
`-log(1 - (1 - p)^|geneset|)`.  The transcendental `-log` is abstracted as a
parameter `neglog : ℚ → ℚ` applied to the exactly-computed argument
`1 - (1 - p)^n`; the `std::isfinite` clamp is a floating-point artifact with
no counterpart in exact arithmetic. -/
def score_quantitative_single (neglog : ℚ → ℚ) (M : ℕ → ℕ → ℚ) (col : ℕ)
    (genesets : List (List ℕ)) : ℚ :=
  genesets.foldl
    (fun score gs =>
      let percentile := gs.foldl (fun p g => min p (M g col)) 1
      if percentile < 1 then
        score + neglog (1 - (1 - percentile) ^ gs.length)
      else score)
    0

/-! ## Missing conditions — `report_missing_conditions` in data.cpp lines
810-832, called (data.cpp line 82) before binary detection, conditioning,
scoring and p-value output. -/

/-- The names in the conditions list absent from the gene-matrix column
names (`std::set_difference`, data.cpp lines 818-822). -/
def missingConditions (condNames colNames : List String) : List String :=
  condNames.filter (fun c => !(colNames.contains c))

/-- The control flow from data.cpp line 82 onward: if any condition name is
missing the process exits (`exit(EXIT_FAILURE)`, data.cpp line 830) before
the rest of the constructor (binary detection, conditioning, scoring,
p-value output) runs; `rest` stands for that entire remainder. -/
def snpsea_run {α : Type} (condNames colNames : List String)
    (rest : Unit → α) : Except (List String) α :=
  if missingConditions condNames colNames = [] then Except.ok (rest ())
  else Except.error (missingConditions condNames colNames)

/-! ## Matched null draws — `matched_genesets` in data.cpp lines 898-914

`_geneset_bins` is abstracted as `bins : ℕ → List (List ℕ)` (operator[] on
the map yields an empty list for an absent key); the Mersenne-Twister draws
are abstracted by the oracle `rng : ℕ → ℕ`, the t-th draw being reduced into
the inclusive range `[0, bound]` of
`uniform_int_distribution(0, _geneset_bins[s].size() - 1)`.  The `size() - 1`
is `ulong` arithmetic, so an empty bin gives bound `2^64 - 1`.  The
bounds-checked `.at(r)` is embedded as `List.get?`; `none` models the thrown
`std::out_of_range`. -/
def drawBound (n : ℕ) : ℕ := (n + U64 - 1) % U64

def matchedGo (bins : ℕ → List (List ℕ)) (rng : ℕ → ℕ) :
    List (ℕ × ℕ) → Option (List (List ℕ))
  | [] => some []
  | (t, s) :: rest =>
    match (bins s).get? (rng t % (drawBound (bins s).length + 1)) with
    | none => none
    | some g => (matchedGo bins rng rest).map (g :: ·)

/-- `matched_genesets` (data.cpp lines 898-914): one uniform draw from
`bins s` for each user geneset size `s`, or `none` if any lookup throws. -/
def matched_genesets (bins : ℕ → List (List ℕ)) (sizes : List ℕ)
    (rng : ℕ → ℕ) : Option (List (List ℕ)) :=
  matchedGo bins rng sizes.enum

/-! ## Lemmas about the batch schedule -/

theorem iterLoop_sum : ∀ (gas s sum m : ℕ), sum ≤ m →
    sum + (iterLoop gas s sum m).sum = m := by
  intro gas
  induction gas with
  | zero =>
    intro s sum m h
    simp only [iterLoop, List.sum_cons, List.sum_nil]
    omega
  | succ g ih =>
    intro s sum m h
    simp only [iterLoop]
    split
    · rename_i hlt
      rw [List.sum_cons]
      have := ih (s * 2) (sum + s * 2) m (Nat.le_of_lt hlt)
      omega
    · simp only [List.sum_cons, List.sum_nil]
      omega

theorem iterations_sum (s m : ℕ) : (iterations s m).sum = max s m := by
  have h := iterLoop_sum (max s m) s s (max s m) (Nat.le_max_left s m)
  simp only [iterations, List.sum_cons]
  omega

theorem iterLoop_doubling : ∀ (gas s sum m : ℕ),
    (∀ i, i + 2 < (iterLoop gas s sum m).length →
      (iterLoop gas s sum m).getD (i + 1) 0 = 2 * (iterLoop gas s sum m).getD i 0)
    ∧ (2 ≤ (iterLoop gas s sum m).length → (iterLoop gas s sum m).getD 0 0 = s * 2) := by
  intro gas
  induction gas with
  | zero =>
    intro s sum m
    refine ⟨fun i hi => ?_, fun h => ?_⟩
    · simp [iterLoop] at hi
    · simp [iterLoop] at h
  | succ g ih =>
    intro s sum m
    simp only [iterLoop]
    split
    · refine ⟨fun i hi => ?_, fun _ => rfl⟩
      match i with
      | 0 =>
        simp only [List.length_cons] at hi
        have h2 : 2 ≤ (iterLoop g (s * 2) (sum + s * 2) m).length := by omega
        have hx := (ih (s * 2) (sum + s * 2) m).2 h2
        rw [List.getD_cons_succ, List.getD_cons_zero, hx]
        ring
      | Nat.succ i =>
        simp only [List.length_cons] at hi
        have hx := (ih (s * 2) (sum + s * 2) m).1 i (by omega)
        rw [List.getD_cons_succ, List.getD_cons_succ]
        exact hx
    · refine ⟨fun i hi => ?_, fun h => ?_⟩
      · simp at hi
      · simp at h

theorem iterations_doubling (s m : ℕ) :
    ∀ i, i + 2 < (iterations s m).length →
      (iterations s m).getD (i + 1) 0 = 2 * (iterations s m).getD i 0 := by
  intro i hi
  simp only [iterations, List.length_cons] at hi ⊢
  match i with
  | 0 =>
    have h2 : 2 ≤ (iterLoop (max s m) s s (max s m)).length := by omega
    have hx := (iterLoop_doubling (max s m) s s (max s m)).2 h2
    rw [List.getD_cons_succ, List.getD_cons_zero, hx]
    ring
  | Nat.succ i =>
    have hx := (iterLoop_doubling (max s m) s s (max s m)).1 i (by omega)
    rw [List.getD_cons_succ, List.getD_cons_succ]
    exact hx

/-- C2 counterexample input: `max_iterations = 1` (≥ 1 as the claim allows).
The schedule is `[100, 0]`, whose sum `100` exceeds `max_iterations`. -/
theorem c2_counterexample :
    (iterations 100 1).sum = 100 ∧ ¬ ((iterations 100 1).sum ≤ 1) := by
  decide

/-- C2 (amended): for every `max_iterations ≥ 100`, the batch-size sequence
starts at 100, doubles from batch to batch except for the final batch which
is trimmed to fit, and its total sum is at most `max_iterations` (in fact
equal to it). -/
theorem c2_batch_schedule (m : ℕ) (h : 100 ≤ m) :
    (iterations 100 m).headI = 100
    ∧ (∀ i, i + 2 < (iterations 100 m).length →
        (iterations 100 m).getD (i + 1) 0 = 2 * (iterations 100 m).getD i 0)
    ∧ (iterations 100 m).sum ≤ m := by
  refine ⟨rfl, iterations_doubling 100 m, ?_⟩
  rw [iterations_sum]
  omega

theorem c2_batch_schedule_witness :
    100 ≤ 1000
    ∧ ((iterations 100 1000).headI = 100
      ∧ (∀ i, i + 2 < (iterations 100 1000).length →
          (iterations 100 1000).getD (i + 1) 0 = 2 * (iterations 100 1000).getD i 0)
      ∧ (iterations 100 1000).sum ≤ 1000) :=
  ⟨by decide, c2_batch_schedule 1000 (by decide)⟩

/-! ## Lemmas about the scheduler loop -/

theorem runColumnGo_bounds (e : ℕ → Bool) (mo : ℕ) :
    ∀ (batches : List ℕ) (obs tested : ℕ), obs ≤ tested →
      (runColumnGo e mo batches obs tested).1 ≤ (runColumnGo e mo batches obs tested).2
      ∧ (runColumnGo e mo batches obs tested).2 ≤ tested + batches.sum := by
  intro batches
  induction batches with
  | nil => intro obs tested h; simpa [runColumnGo] using h
  | cons c rest ih =>
    intro obs tested h
    simp only [runColumnGo]
    have hflen : ((List.range c).filter (fun i => e (tested + i))).length ≤ c := by
      calc ((List.range c).filter (fun i => e (tested + i))).length
        ≤ (List.range c).length := List.length_filter_le _ _
        _ = c := List.length_range c
    split
    · constructor
      · simp only
        omega
      · simp only [List.sum_cons]
        omega
    · have := ih (obs + ((List.range c).filter (fun i => e (tested + i))).length)
        (tested + c) (by omega)
      simp only [List.sum_cons]
      omega

/-- C1 counterexample input: `user_score = 1`, no null draw ever exceeds it,
`min_observations = 1`, `max_iterations = 50` (accepted by the CLI checks,
which only require `0 < min_observations < max_iterations`).  The scheduler
still tests 100 nulls, so `nulls_tested ≤ max_iterations` fails. -/
theorem c1_counterexample :
    (calculate_pvalues_column 1 (fun _ => false) 1 50).2.2 = 100
    ∧ ¬ ((calculate_pvalues_column 1 (fun _ => false) 1 50).2.2 ≤ 50) := by
  decide

/-- C1 (amended): every emitted `(pvalue, nulls_observed, nulls_tested)` —
including the `user_score ≤ 0` short-circuit — satisfies
`pvalue = (nulls_observed + 1) / (nulls_tested + 1)` and
`0 ≤ nulls_observed ≤ nulls_tested ≤ max 100 max_iterations` (the first
batch always has size 100, so for `max_iterations < 100` the bound is 100,
not `max_iterations`). -/
theorem c1_pvalue_invariant (us : ℚ) (e : ℕ → Bool) (mo mi : ℕ) :
    (calculate_pvalues_column us e mo mi).1
      = (((calculate_pvalues_column us e mo mi).2.1 : ℚ) + 1)
        / (((calculate_pvalues_column us e mo mi).2.2 : ℚ) + 1)
    ∧ (calculate_pvalues_column us e mo mi).2.1
        ≤ (calculate_pvalues_column us e mo mi).2.2
    ∧ (calculate_pvalues_column us e mo mi).2.2 ≤ max 100 mi := by
  unfold calculate_pvalues_column
  split
  · refine ⟨by norm_num, le_refl 0, Nat.zero_le _⟩
  · have hb := runColumnGo_bounds e mo (iterations 100 mi) 0 0 (le_refl 0)
    rw [iterations_sum] at hb
    refine ⟨rfl, hb.1, ?_⟩
    show (runColumnGo e mo (iterations 100 mi) 0 0).2 ≤ max 100 mi
    omega

/-! ## C5: the slop clamp -/

/-- C5 evaluation at the failing input: SNP interval `[100, 200]`, default
`slop = 250000`, one gene (row-index 7) on the interval `[40, 60]`.
The exact query finds nothing; the expanded query of `snp_geneset` uses the
wrapped low bound `2^64 - 249900` (the `std::max(1UL, start - slop)` clamp is
defeated by `ulong` underflow) and also finds nothing, while the
spec-intended clamp to genome coordinate 1 finds the gene. -/
theorem c5_slop_clamp_bug :
    snp_geneset (fun s e => if s ≤ 60 ∧ 40 ≤ e then [7] else [])
        ⟨100, 200⟩ 250000 = []
    ∧ snp_geneset_clamped (fun s e => if s ≤ 60 ∧ 40 ≤ e then [7] else [])
        ⟨100, 200⟩ 250000 = [7]
    ∧ max 1 (wsub 100 250000) = 2 ^ 64 - 249900 := by
  decide

/-! ## C7: quantitative-single score on the trivial scenario -/

/-- C7 counterexample: one ranked column `[1/4, 2/4, 3/4, 1]`, user geneset
`{row 0}`.  Instantiating the abstract `-log` with `id` shows the score is
`neglog (1/4)`, not `neglog (3/4)` as the claim states (the code computes
`-log(1 - (1 - 1/4)^1) = -log(1/4)`; `-log` is injective on `(0, 1]`). -/
theorem c7_counterexample :
    score_quantitative_single id
        (fun r _ => [(1 : ℚ)/4, 2/4, 3/4, 1].getD r 0) 0 [[0]] = 1/4
    ∧ ¬ (score_quantitative_single id
        (fun r _ => [(1 : ℚ)/4, 2/4, 3/4, 1].getD r 0) 0 [[0]] = 3/4) := by
  constructor <;>
    · simp only [score_quantitative_single, List.foldl, List.getD,
        List.getElem?_cons_zero, Option.getD_some]
      norm_num

/-- C7 (amended): on the one-column matrix with ranked values
`[1/4, 2/4, 3/4, 1]` and the single user geneset `{row 0}`, the
quantitative-single score is `-log(1 - (1 - 1/4)^1) = -log(1/4)`, for any
interpretation `neglog` of `x ↦ -log x`. -/
theorem c7_quantitative_single_trivial (neglog : ℚ → ℚ) :
    score_quantitative_single neglog
        (fun r _ => [(1 : ℚ)/4, 2/4, 3/4, 1].getD r 0) 0 [[0]]
      = neglog (1/4) := by
  simp only [score_quantitative_single, List.foldl, List.getD,
    List.getElem?_cons_zero, Option.getD_some]
  norm_num

/-! ## C8: binary-mode caches -/

/-- C8 counterexample: matrix columns `[[1,0], [2,0]]` (column 0 is 0/1, so
binary mode is detected; column 1 is not), with one of the two matrix genes
absent from the gene-intervals file so that `_nrows = 1`.  Then
`sum[1] = 2 ≠ 1 =` (nonzero rows of column 1), and
`prob[0] = sum[0]/_nrows = 1 ≠ sum[0]/R = 1/2`. -/
theorem c8_counterexample :
    is_binary [(1 : ℚ), 0] = true
    ∧ (binary_sums [[(1 : ℚ), 0], [2, 0]]).getD 1 0 = 2
    ∧ countNonzero [(2 : ℚ), 0] = 1
    ∧ ¬ ((binary_sums [[(1 : ℚ), 0], [2, 0]]).getD 1 0
        = (countNonzero [(2 : ℚ), 0] : ℚ))
    ∧ (binary_probs [[(1 : ℚ), 0], [2, 0]] 1).getD 0 0 = 1
    ∧ ¬ ((binary_probs [[(1 : ℚ), 0], [2, 0]] 1).getD 0 0
        = (binary_sums [[(1 : ℚ), 0], [2, 0]]).getD 0 0 / 2) := by
  refine ⟨by norm_num [is_binary], by norm_num [binary_sums], ?_, ?_, ?_, ?_⟩ <;>
    norm_num [binary_sums, binary_probs, countNonzero]

theorem sum_eq_countNonzero_of_01 :
    ∀ l : List ℚ, (∀ v ∈ l, v = 0 ∨ v = 1) → l.sum = (countNonzero l : ℚ) := by
  intro l
  induction l with
  | nil => intro _; simp [countNonzero]
  | cons v rest ih =>
    intro h
    have hrest := ih (fun w hw => h w (List.mem_cons_of_mem v hw))
    rcases h v (List.mem_cons_self v rest) with h0 | h1
    · subst h0
      have hfil : countNonzero ((0 : ℚ) :: rest) = countNonzero rest := by
        simp [countNonzero, List.filter_cons]
      rw [List.sum_cons, hfil, hrest, zero_add]
    · subst h1
      have hbeq : ((1 : ℚ) == 0) = false := by
        simp [beq_eq_false_iff_ne]
      have hfil : countNonzero ((1 : ℚ) :: rest) = countNonzero rest + 1 := by
        simp [countNonzero, List.filter_cons, hbeq]
      rw [List.sum_cons, hfil, hrest]
      push_cast
      ring

/-- C8 (amended): in binary mode `sum[c]` is the arithmetic column sum —
which equals the count of nonzero rows exactly when column `c` is 0/1-valued
(only column 0 is checked by `is_binary`) — and
`prob[c] = sum[c] / _nrows` with `_nrows` the effective row count
(matrix rows minus matrix genes absent from the gene-intervals file), not
the raw matrix row count.  The matrix values themselves are not modified by
this branch (no mutation occurs in data.cpp lines 87-94). -/
theorem c8_binary_caches (cols : List (List ℚ)) (nrowsEff c : ℕ)
    (hc : c < cols.length) :
    (binary_probs cols nrowsEff).getD c 0
      = (binary_sums cols).getD c 0 / (nrowsEff : ℚ)
    ∧ ((∀ v ∈ cols.getD c [], v = 0 ∨ v = 1) →
        (binary_sums cols).getD c 0 = (countNonzero (cols.getD c []) : ℚ)) := by
  have hlen : c < (binary_sums cols).length := by
    simpa [binary_sums] using hc
  constructor
  · rw [List.getD_eq_getElem _ _ (by simpa [binary_probs, binary_sums] using hc),
      List.getD_eq_getElem _ _ hlen]
    simp [binary_probs]
  · intro h01
    rw [List.getD_eq_getElem _ _ hlen]
    simp only [binary_sums, List.getElem_map]
    rw [← List.getD_eq_getElem cols []  hc]
    exact sum_eq_countNonzero_of_01 _ h01

theorem c8_binary_caches_witness :
    0 < 2
    ∧ ((binary_probs [[(1 : ℚ), 0], [2, 0]] 1).getD 0 0
        = (binary_sums [[(1 : ℚ), 0], [2, 0]]).getD 0 0 / ((1 : ℕ) : ℚ)
      ∧ ((∀ v ∈ [[(1 : ℚ), 0], [2, 0]].getD 0 [], v = 0 ∨ v = 1) →
          (binary_sums [[(1 : ℚ), 0], [2, 0]]).getD 0 0
            = (countNonzero ([[(1 : ℚ), 0], [2, 0]].getD 0 []) : ℚ))) :=
  ⟨by decide, c8_binary_caches [[(1 : ℚ), 0], [2, 0]] 1 0 (by decide)⟩

/-! ## C9: missing conditions are fatal before any processing -/

/-- C9: if some name in the conditions list is absent from the gene-matrix
column names, the run terminates with the missing-condition diagnostic and
the remainder of the pipeline (binary detection, conditioning, scoring,
p-value output) never runs: the result is `error` for every possible
remainder `rest`. -/
theorem c9_missing_condition_fatal {α : Type} (condNames colNames : List String)
    (name : String) (h1 : name ∈ condNames) (h2 : name ∉ colNames)
    (rest : Unit → α) :
    snpsea_run condNames colNames rest
      = Except.error (missingConditions condNames colNames)
    ∧ missingConditions condNames colNames ≠ [] := by
  have hmem : name ∈ missingConditions condNames colNames := by
    simp only [missingConditions, List.mem_filter, Bool.not_eq_true']
    exact ⟨h1, by simpa using h2⟩
  have hne : missingConditions condNames colNames ≠ [] :=
    List.ne_nil_of_mem hmem
  exact ⟨by simp [snpsea_run, hne], hne⟩

theorem c9_missing_condition_fatal_witness :
    "BCell" ∈ ["BCell"]
    ∧ "BCell" ∉ ["Liver", "Lung"]
    ∧ (snpsea_run ["BCell"] ["Liver", "Lung"] (fun _ => (0 : ℕ))
        = Except.error (missingConditions ["BCell"] ["Liver", "Lung"])
      ∧ missingConditions ["BCell"] ["Liver", "Lung"] ≠ []) :=
  ⟨by decide, by decide,
    c9_missing_condition_fatal ["BCell"] ["Liver", "Lung"] "BCell"
      (by decide) (by decide) _⟩

/-! ## C10: matched draws with an empty bin -/

theorem matchedGo_spec (bins : ℕ → List (List ℕ)) (rng : ℕ → ℕ) :
    ∀ l : List (ℕ × ℕ),
      (matchedGo bins rng l = none ↔ ∃ p ∈ l, bins p.2 = [])
      ∧ ∀ out, matchedGo bins rng l = some out → out.length = l.length := by
  intro l
  induction l with
  | nil =>
    refine ⟨by simp [matchedGo], fun out h => ?_⟩
    simp only [matchedGo, Option.some.injEq] at h
    simp [← h]
  | cons hd rest ih =>
    obtain ⟨t, s⟩ := hd
    by_cases hb : bins s = []
    · refine ⟨?_, fun out h => ?_⟩
      · simp [matchedGo, hb]
      · simp [matchedGo, hb] at h
    · have hlen : 0 < (bins s).length := List.length_pos.mpr hb
      have hidx : rng t % (drawBound (bins s).length + 1) < (bins s).length := by
        have hdb : drawBound (bins s).length < (bins s).length := by
          unfold drawBound U64
          have heq : (bins s).length + 2 ^ 64 - 1 = ((bins s).length - 1) + 2 ^ 64 := by
            omega
          rw [heq, Nat.add_mod_right]
          have := Nat.mod_le ((bins s).length - 1) (2 ^ 64)
          omega
        have := @Nat.mod_lt (rng t) (drawBound (bins s).length + 1) (by omega)
        omega
      have hget : (bins s).get? (rng t % (drawBound (bins s).length + 1))
          = some ((bins s).get ⟨_, hidx⟩) := List.get?_eq_get hidx
      refine ⟨?_, fun out h => ?_⟩
      · simp only [matchedGo, hget]
        constructor
        · intro h
          rcases hrec : matchedGo bins rng rest with _ | v
          · exact (ih.1.mp hrec).imp
              (fun p hp => ⟨List.mem_cons_of_mem _ hp.1, hp.2⟩)
          · rw [hrec] at h
            simp at h
        · rintro ⟨p, hp, hempty⟩
          rcases List.mem_cons.mp hp with rfl | hp'
          · exact absurd hempty hb
          · rw [ih.1.mpr ⟨p, hp', hempty⟩]
            rfl
      · simp only [matchedGo, hget] at h
        rcases hrec : matchedGo bins rng rest with _ | v
        · rw [hrec] at h
          simp at h
        · rw [hrec] at h
          simp only [Option.map_some', Option.some.injEq] at h
          have := ih.2 v hrec
          simp [← h, this]

/-- C10: a matched-null draw is well-defined only when every required bin is
non-empty.  `matched_genesets` returns `none` (the `ulong` bound
`size - 1` wraps to `2^64 - 1` and the bounds-checked `.at` throws) exactly
when some user geneset size has an empty bin; when it does return, it
returns one geneset per user locus. -/
theorem c10_matched_genesets_empty_bin (bins : ℕ → List (List ℕ))
    (sizes : List ℕ) (rng : ℕ → ℕ) :
    (matched_genesets bins sizes rng = none ↔ ∃ s ∈ sizes, bins s = [])
    ∧ ∀ out, matched_genesets bins sizes rng = some out →
        out.length = sizes.length := by
  have h := matchedGo_spec bins rng sizes.enum
  constructor
  · rw [matched_genesets, h.1]
    constructor
    · rintro ⟨p, hp, hempty⟩
      refine ⟨p.2, ?_, hempty⟩
      have : p.2 ∈ sizes.enum.map Prod.snd := List.mem_map_of_mem Prod.snd hp
      simpa [List.enum_map_snd] using this
    · rintro ⟨s, hs, hempty⟩
      have : s ∈ sizes.enum.map Prod.snd := by simpa [List.enum_map_snd] using hs
      rcases List.mem_map.mp this with ⟨p, hp, rfl⟩
      exact ⟨p, hp, hempty⟩
  · intro out hout
    have := h.2 out hout
    simpa [List.enum_length] using this

theorem c10_matched_genesets_witness :
    matched_genesets (fun s => if s = 1 then [[5]] else []) [1, 2]
      (fun _ => 3) = none :=
  (c10_matched_genesets_empty_bin (fun s => if s = 1 then [[5]] else [])
    [1, 2] (fun _ => 3)).1.mpr ⟨2, by decide, by decide⟩

/-! ## C3: merging of user SNPs -/

/-- C3 counterexample input: SNPs `a, b, c` (iterated in this sorted order)
with genesets `{1}`, `{2}`, `{1,2}`.  The single pairwise pass merges `c`
into `a` (locus `a,c` with geneset `{1,2}`) before ever comparing the grown
geneset against `b` again, and `b` was disjoint from the original `{1}`; the
output loci `a,c ↦ {1,2}` and `b ↦ {2}` share row-index 2, so the merge does
not reach a fixed point. -/
theorem c3_counterexample :
    merge_user_snps ["a", "b", "c"]
        (fun s => if s = "a" then some [1]
          else if s = "b" then some [2]
          else if s = "c" then some [1, 2] else none)
      = [("a,c", [1, 2]), ("b", [2])]
    ∧ ¬ lociPairwiseDisjoint
        (merge_user_snps ["a", "b", "c"]
          (fun s => if s = "a" then some [1]
            else if s = "b" then some [2]
            else if s = "c" then some [1, 2] else none)) := by
  refine ⟨by decide, ?_⟩
  intro h
  rw [show merge_user_snps ["a", "b", "c"]
      (fun s => if s = "a" then some [1]
        else if s = "b" then some [2]
        else if s = "c" then some [1, 2] else none)
      = [("a,c", [1, 2]), ("b", [2])] from by decide] at h
  rcases h with _ | ⟨hpair, _⟩
  exact hpair ("b", [2]) (List.mem_singleton.mpr rfl) 2 (by decide) (by decide)

theorem mergeUnionF_length_of_disjoint :
    ∀ (fuel : ℕ) (xs ys : List ℕ), (∀ g ∈ xs, g ∉ ys) →
      (mergeUnionF fuel xs ys).length = xs.length + ys.length := by
  intro fuel
  induction fuel with
  | zero => intro xs ys _; simp [mergeUnionF]
  | succ f ih =>
    intro xs ys hd
    match xs, ys with
    | [], ys => simp [mergeUnionF]
    | x :: xs, [] => simp [mergeUnionF]
    | x :: xs, y :: ys =>
      by_cases hxy : x < y
      · have hd' : ∀ g ∈ xs, g ∉ y :: ys :=
          fun g hg => hd g (List.mem_cons_of_mem x hg)
        simp only [mergeUnionF, if_pos hxy, List.length_cons, ih xs (y :: ys) hd']
        omega
      · by_cases hyx : y < x
        · have hd' : ∀ g ∈ x :: xs, g ∉ ys := fun g hg hmem =>
            hd g hg (List.mem_cons_of_mem y hmem)
          simp only [mergeUnionF, if_neg hxy, if_pos hyx, List.length_cons,
            ih (x :: xs) ys hd']
          omega
        · exfalso
          have hx : x = y := by omega
          exact hd x (List.mem_cons_self x xs) (hx ▸ List.mem_cons_self y ys)

theorem mergeInnerStep_eq_self (gs : String → Option (List ℕ)) (a b : String)
    (st : MergeState)
    (h : b ≠ a → ∀ g ∈ st.genes, g ∉ (gs b).getD []) :
    mergeInnerStep gs a st b = st := by
  by_cases hab : a = b
  · simp [mergeInnerStep, hab]
  · rcases hgb : gs b with _ | gb0
    · simp [mergeInnerStep, hab, hgb]
    · by_cases hm : b ∈ st.merged
      · simp [mergeInnerStep, hab, hgb, hm]
      · have hdisj : ∀ g ∈ st.genes, g ∉ sortGenes gb0 := by
          intro g hg hmem
          have hg' : g ∈ gb0 := (List.perm_insertionSort (· ≤ ·) gb0).subset hmem
          have := h (fun e => hab e.symm) g hg
          rw [hgb] at this
          exact this hg'
        have hlen := mergeUnionF_length_of_disjoint
          (st.genes.length + (sortGenes gb0).length) st.genes (sortGenes gb0) hdisj
        simp [mergeInnerStep, hab, hgb, hm, mergeUnion, hlen]

theorem foldl_mergeInnerStep_id (gs : String → Option (List ℕ)) (a : String)
    (st : MergeState) :
    ∀ l : List String, (∀ b ∈ l, mergeInnerStep gs a st b = st) →
      l.foldl (mergeInnerStep gs a) st = st := by
  intro l
  induction l with
  | nil => intro _; rfl
  | cons b rest ih =>
    intro h
    rw [List.foldl_cons, h b (List.mem_cons_self b rest)]
    exact ih (fun c hc => h c (List.mem_cons_of_mem b hc))

theorem mergeOuter_fold_of_disjoint (names : List String)
    (gs : String → Option (List ℕ))
    (hdisj : ∀ a ∈ names, ∀ b ∈ names, a ≠ b →
      ∀ g ∈ (gs a).getD [], g ∉ (gs b).getD []) :
    ∀ (l : List String) (out : List (String × List ℕ)), (∀ a ∈ l, a ∈ names) →
      (l.foldl (mergeOuterStep gs names) (out, [])).1
        = out ++ l.filterMap (fun a => (gs a).map (fun g => (a, sortGenes g))) := by
  intro l
  induction l with
  | nil => intro out _; simp
  | cons a rest ih =>
    intro out hsub
    have ha : a ∈ names := hsub a (List.mem_cons_self a rest)
    rw [List.foldl_cons, List.filterMap_cons]
    rcases hga : gs a with _ | ga0
    · have hstep : mergeOuterStep gs names (out, []) a = (out, []) := by
        simp [mergeOuterStep, hga]
      rw [hstep]
      have := ih out (fun c hc => hsub c (List.mem_cons_of_mem a hc))
      simpa using this
    · have hinner : ∀ b ∈ names,
          mergeInnerStep gs a ⟨a, sortGenes ga0, []⟩ b = ⟨a, sortGenes ga0, []⟩ := by
        intro b hb
        refine mergeInnerStep_eq_self gs a b _ (fun hba g hg => ?_)
        have hg' : g ∈ (gs a).getD [] := by
          rw [hga]
          exact (List.perm_insertionSort (· ≤ ·) ga0).subset hg
        exact hdisj a ha b hb (fun e => hba e.symm) g hg'
      have hstep : mergeOuterStep gs names (out, []) a
          = (out ++ [(a, sortGenes ga0)], []) := by
        have hf := foldl_mergeInnerStep_id gs a ⟨a, sortGenes ga0, []⟩ names hinner
        simp [mergeOuterStep, hga, hf]
      rw [hstep]
      have := ih (out ++ [(a, sortGenes ga0)])
        (fun c hc => hsub c (List.mem_cons_of_mem a hc))
      rw [this, List.append_assoc]
      simp

/-- C3 (amended): `merge_user_snps` is a single pairwise pass, not iterated
to a fixed point (see `c3_counterexample`).  When the input genesets are
pairwise disjoint it performs no merge at all: every SNP that resolved to a
geneset becomes its own locus, with its geneset sorted, and in particular no
pair of loci then shares a row-index. -/
theorem c3_merge_single_pass (names : List String)
    (gs : String → Option (List ℕ))
    (hdisj : ∀ a ∈ names, ∀ b ∈ names, a ≠ b →
      ∀ g ∈ (gs a).getD [], g ∉ (gs b).getD []) :
    merge_user_snps names gs
      = names.filterMap (fun a => (gs a).map (fun g => (a, sortGenes g))) := by
  have := mergeOuter_fold_of_disjoint names gs hdisj names [] (fun a ha => ha)
  simpa [merge_user_snps] using this

theorem c3_merge_single_pass_witness :
    (∀ a ∈ ["x", "y"], ∀ b ∈ ["x", "y"], a ≠ b →
      ∀ g ∈ ((fun s => if s = "x" then some [1]
          else if s = "y" then some [2] else none) a).getD [],
        g ∉ ((fun s => if s = "x" then some [1]
          else if s = "y" then some [2] else none) b).getD [])
    ∧ merge_user_snps ["x", "y"]
        (fun s => if s = "x" then some [1]
          else if s = "y" then some [2] else none)
      = ["x", "y"].filterMap
          (fun a => (((fun s => if s = "x" then some [1]
            else if s = "y" then some [2] else none)) a).map
              (fun g => (a, sortGenes g))) :=
  ⟨by decide,
    c3_merge_single_pass ["x", "y"]
      (fun s => if s = "x" then some [1]
        else if s = "y" then some [2] else none) (by decide)⟩

/-! ## C4: percentile ranking -/

theorem lookup_mem : ∀ (l : List (ℕ × ℚ)) (a : ℕ) (b : ℚ),
    l.lookup a = some b → (a, b) ∈ l := by
  intro l
  induction l with
  | nil => intro a b h; simp [List.lookup] at h
  | cons p rest ih =>
    intro a b h
    obtain ⟨k, v⟩ := p
    rw [List.lookup] at h
    cases hbeq : (a == k) with
    | true =>
      rw [hbeq] at h
      have ha : a = k := by simpa using hbeq
      have hb : v = b := by simpa using h
      subst ha
      subst hb
      exact List.mem_cons_self _ _
    | false =>
      rw [hbeq] at h
      exact List.mem_cons_of_mem _ (ih a b h)

theorem lookup_of_mem_keys : ∀ (l : List (ℕ × ℚ)) (a : ℕ),
    a ∈ l.map Prod.fst → ∃ b, l.lookup a = some b := by
  intro l
  induction l with
  | nil => intro a h; simp at h
  | cons p rest ih =>
    intro a h
    obtain ⟨k, v⟩ := p
    by_cases hak : a = k
    · subst hak
      exact ⟨v, by simp [List.lookup]⟩
    · have h' : a ∈ rest.map Prod.fst := by
        simp only [List.map_cons, List.mem_cons] at h
        rcases h with h0 | h0
        · exact absurd h0 hak
        · exact h0
      obtain ⟨b, hb⟩ := ih a h'
      refine ⟨b, ?_⟩
      rw [List.lookup]
      have : (a == k) = false := by simpa using hak
      rw [this]
      exact hb

theorem rankWalkF_keys : ∀ (fuel : ℕ) (l : List (ℕ × ℚ)) (i : ℕ),
    l.length ≤ fuel →
    (rankWalkF fuel l i).map Prod.fst = l.map Prod.fst := by
  intro fuel
  induction fuel with
  | zero =>
    intro l i h
    have hl : l = [] := List.eq_nil_of_length_eq_zero (Nat.le_zero.mp h)
    subst hl
    simp [rankWalkF]
  | succ f ih =>
    intro l i h
    rcases l with _ | ⟨⟨j, v⟩, rest⟩
    · simp [rankWalkF]
    · simp only [rankWalkF, List.map_cons, List.map_append, List.map_map]
      have hd : (rest.dropWhile (fun q => q.2 == v)).length ≤ f := by
        have hsub : (rest.dropWhile (fun q => q.2 == v)).length ≤ rest.length :=
          (List.dropWhile_sublist (fun q : ℕ × ℚ => q.2 == v)).length_le
        simp only [List.length_cons] at h
        omega
      rw [ih _ _ hd]
      conv_rhs => rw [← List.takeWhile_append_dropWhile (fun q => q.2 == v) rest]
      rw [List.map_append]
      rfl

theorem rankWalkF_bounds : ∀ (fuel : ℕ) (l : List (ℕ × ℚ)) (i : ℕ),
    l.length ≤ fuel →
    ∀ p ∈ rankWalkF fuel l i, 1 ≤ p.2 ∧ p.2 ≤ ((i + l.length : ℕ) : ℚ) := by
  intro fuel
  induction fuel with
  | zero =>
    intro l i h p hp
    have hl : l = [] := List.eq_nil_of_length_eq_zero (Nat.le_zero.mp h)
    subst hl
    simp [rankWalkF] at hp
  | succ f ih =>
    intro l i h p hp
    rcases l with _ | ⟨⟨j, v⟩, rest⟩
    · simp [rankWalkF] at hp
    · simp only [rankWalkF, List.mem_cons, List.mem_append, List.mem_map] at hp
      have hlen : ((j, v) :: rest).length = rest.length + 1 := List.length_cons _ _
      have hrun : (rest.takeWhile (fun q => q.2 == v)).length ≤ rest.length :=
        (List.takeWhile_sublist (fun q : ℕ × ℚ => q.2 == v)).length_le
      have hrankb : 1 ≤ (((2 * i + ((rest.takeWhile (fun q => q.2 == v)).length + 1) - 1 : ℕ) : ℚ) / 2 + 1)
          ∧ (((2 * i + ((rest.takeWhile (fun q => q.2 == v)).length + 1) - 1 : ℕ) : ℚ) / 2 + 1)
            ≤ ((i + ((j, v) :: rest).length : ℕ) : ℚ) := by
        constructor
        · have h0 : (0 : ℚ) ≤ ((2 * i + ((rest.takeWhile (fun q => q.2 == v)).length + 1) - 1 : ℕ) : ℚ) :=
            Nat.cast_nonneg _
          linarith
        · have hsub : (2 * i + ((rest.takeWhile (fun q => q.2 == v)).length + 1) - 1 : ℕ)
              = 2 * i + (rest.takeWhile (fun q => q.2 == v)).length := by omega
          rw [hsub, hlen]
          push_cast
          have hcast : ((rest.takeWhile (fun q => q.2 == v)).length : ℚ) ≤ (rest.length : ℚ) := by
            exact_mod_cast hrun
          linarith
      rcases hp with rfl | hp'
      · exact hrankb
      · rcases hp' with ⟨q, _, rfl⟩ | hmem
        · exact hrankb
        · have hd : (rest.dropWhile (fun q => q.2 == v)).length ≤ f := by
            have hsub : (rest.dropWhile (fun q => q.2 == v)).length ≤ rest.length :=
              (List.dropWhile_sublist (fun q : ℕ × ℚ => q.2 == v)).length_le
            simp only [List.length_cons] at h
            omega
          have hb := ih _ _ hd p hmem
          have hsum : (rest.takeWhile (fun q => q.2 == v)).length
              + (rest.dropWhile (fun q => q.2 == v)).length = rest.length := by
            have hc := congrArg List.length (List.takeWhile_append_dropWhile
              (fun q => q.2 == v) rest)
            rw [List.length_append] at hc
            exact hc
          refine ⟨hb.1, le_trans hb.2 (le_of_eq ?_)⟩
          have hnat : i + ((rest.takeWhile (fun q => q.2 == v)).length + 1)
              + (rest.dropWhile (fun q => q.2 == v)).length
              = i + ((j, v) :: rest).length := by
            simp only [List.length_cons]
            omega
          exact_mod_cast congrArg (Nat.cast : ℕ → ℚ) hnat

/-- C4 (amended): after the per-column ranking step every matrix entry
equals `rank / _nrows` where `rank` is an average descending rank in
`[1, R]` (half-integers occur for ties) and `_nrows` is the effective row
count, so every entry lies in `[1/_nrows, R/_nrows]`.  The claimed form
`{1/R, …, 1} ⊆ (0, 1]` fails both for ties and when `_nrows < R`
(see the counterexample). -/
theorem c4_rank_entry_range (cols : List (List ℚ)) (nrowsEff R : ℕ)
    (hE : 1 ≤ nrowsEff) (hR : ∀ col ∈ cols, col.length = R) :
    ∀ rcol ∈ rank_columns cols nrowsEff, ∀ q ∈ rcol,
      1 / (nrowsEff : ℚ) ≤ q ∧ q ≤ (R : ℚ) / (nrowsEff : ℚ) := by
  intro rcol hrcol q hq
  rcases List.mem_map.mp hrcol with ⟨col, hcol, rfl⟩
  rcases List.mem_map.mp hq with ⟨r, hr, rfl⟩
  rcases List.mem_map.mp hr with ⟨j, hjmem, rfl⟩
  have hj : j < col.length := List.mem_range.mp hjmem
  have hkeys : (rankWalkF
        (List.insertionSort (fun a b : ℕ × ℚ => b.2 ≤ a.2) col.enum).length
        (List.insertionSort (fun a b : ℕ × ℚ => b.2 ≤ a.2) col.enum) 0).map Prod.fst
      = (List.insertionSort (fun a b : ℕ × ℚ => b.2 ≤ a.2) col.enum).map Prod.fst :=
    rankWalkF_keys _ _ 0 (le_refl _)
  have hjk : j ∈ (List.insertionSort (fun a b : ℕ × ℚ => b.2 ≤ a.2) col.enum).map Prod.fst := by
    have hperm := (List.perm_insertionSort (fun a b : ℕ × ℚ => b.2 ≤ a.2) col.enum).map Prod.fst
    rw [hperm.mem_iff, List.enum_map_fst]
    exact List.mem_range.mpr hj
  obtain ⟨r, hlook⟩ := lookup_of_mem_keys _ j (by rw [hkeys]; exact hjk)
  have hmem := lookup_mem _ j r hlook
  have hbounds := rankWalkF_bounds _ _ 0 (le_refl _) (j, r) hmem
  have hslen : (List.insertionSort (fun a b : ℕ × ℚ => b.2 ≤ a.2) col.enum).length
      = col.length := by
    rw [List.length_insertionSort, List.enum_length]
  have hEpos : (0 : ℚ) < (nrowsEff : ℚ) := by exact_mod_cast hE
  have h1 : (1 : ℚ) ≤ r := hbounds.1
  have h2 : r ≤ (R : ℚ) := by
    have hb2 := hbounds.2
    have hcast : ((0 + (List.insertionSort (fun a b : ℕ × ℚ => b.2 ≤ a.2) col.enum).length : ℕ) : ℚ)
        = (R : ℚ) := by
      rw [Nat.zero_add, hslen, hR col hcol]
    rw [hcast] at hb2
    exact hb2
  rw [hlook, Option.getD_some]
  constructor
  · gcongr
  · gcongr

/-- `rankdata` on the column `[1, 1, 2]`: descending ranks with tie
averaging give `[5/2, 5/2, 1]`. -/
theorem rankdata_example : rankdata [1, 1, 2] = [5/2, 5/2, 1] := by
  have e12 : ((1 : ℚ) == 2) = false := by decide
  have e21 : ((2 : ℚ) == 1) = false := by decide
  have e11 : ((1 : ℚ) == 1) = true := by decide
  have n02 : ((0 : ℕ) == 2) = false := by decide
  have n00 : ((0 : ℕ) == 0) = true := by decide
  have n12 : ((1 : ℕ) == 2) = false := by decide
  have n10 : ((1 : ℕ) == 0) = false := by decide
  have n11 : ((1 : ℕ) == 1) = true := by decide
  have n22 : ((2 : ℕ) == 2) = true := by decide
  norm_num [rankdata, rankWalkF, List.insertionSort, List.orderedInsert,
    List.enum, List.enumFrom, List.range_succ, List.lookup, List.takeWhile,
    List.dropWhile, e12, e21, e11, n02, n00, n12, n10, n11, n22]

/-- C4 counterexample input: a one-column matrix `[[1, 1, 2]]` (`R = 3`
rows, with a tie) and effective row count `_nrows = 2` (one matrix gene
absent from the gene-intervals file).  The ranked entry at row 0 is
`(5/2)/2 = 5/4`: not of the form `k/R` for `k ∈ {1, 2, 3}`, and greater
than 1, so outside `(0, 1]`. -/
theorem c4_counterexample :
    ((rank_columns [[1, 1, 2]] 2).getD 0 []).getD 0 0 = 5/4
    ∧ ¬ (∃ k : ℕ, 1 ≤ k ∧ k ≤ 3
        ∧ ((rank_columns [[1, 1, 2]] 2).getD 0 []).getD 0 0 = (k : ℚ) / 3)
    ∧ ¬ (((rank_columns [[1, 1, 2]] 2).getD 0 []).getD 0 0 ≤ 1) := by
  have he : ((rank_columns [[1, 1, 2]] 2).getD 0 []).getD 0 0 = 5/4 := by
    simp only [rank_columns, List.map_cons, List.map_nil, rankdata_example,
      List.getD_cons_zero]
    norm_num
  refine ⟨he, ?_, ?_⟩
  · rintro ⟨k, hk1, hk3, hkeq⟩
    rw [he] at hkeq
    interval_cases k <;> norm_num at hkeq
  · rw [he]
    norm_num

theorem c4_rank_entry_range_witness :
    1 ≤ 2
    ∧ (∀ col ∈ [[(1 : ℚ), 1, 2]], col.length = 3)
    ∧ (∀ rcol ∈ rank_columns [[(1 : ℚ), 1, 2]] 2, ∀ q ∈ rcol,
        1 / ((2 : ℕ) : ℚ) ≤ q ∧ q ≤ ((3 : ℕ) : ℚ) / ((2 : ℕ) : ℚ)) :=
  ⟨by decide, by decide,
    c4_rank_entry_range [[(1 : ℚ), 1, 2]] 2 3 (by decide) (by decide)⟩

/-! ## C6: conditioning orthogonality -/

theorem dot_zero_left {R : ℕ} (b : Col R) : dot 0 b = 0 := by
  simp [dot]

theorem dot_zero_right {R : ℕ} (a : Col R) : dot a 0 = 0 := by
  simp [dot]

theorem dot_sub_smul_left {R : ℕ} (a c b : Col R) (γ : ℚ) :
    dot (a - γ • c) b = dot a b - γ * dot c b := by
  simp only [dot, Pi.sub_apply, Pi.smul_apply, smul_eq_mul, sub_mul,
    Finset.sum_sub_distrib, Finset.mul_sum]
  congr 1
  exact Finset.sum_congr rfl (fun i _ => by ring)

theorem dot_add_right {R : ℕ} (a v w : Col R) :
    dot a (v + w) = dot a v + dot a w := by
  simp only [dot, Pi.add_apply, mul_add, Finset.sum_add_distrib]

theorem dot_smul_right {R : ℕ} (a v : Col R) (γ : ℚ) :
    dot a (γ • v) = γ * dot a v := by
  simp only [dot, Pi.smul_apply, smul_eq_mul, Finset.mul_sum]
  exact Finset.sum_congr rfl (fun i _ => by ring)

theorem eq_zero_of_dot_self_eq_zero {R : ℕ} {b : Col R} (h : dot b b = 0) :
    b = 0 := by
  funext i
  have hsq : ∀ j ∈ Finset.univ, (0 : ℚ) ≤ b j * b j :=
    fun j _ => mul_self_nonneg (b j)
  have := (Finset.sum_eq_zero_iff_of_nonneg hsq).mp h i (Finset.mem_univ i)
  exact mul_self_eq_zero.mp this

theorem conditionPass_ortho {R : ℕ} (b : Col R) (M : List (Col R)) :
    ∀ a ∈ conditionPass b M, dot a b = 0 := by
  intro a' ha'
  rcases List.mem_map.mp ha' with ⟨a, _, rfl⟩
  rw [dot_sub_smul_left]
  by_cases hb : dot b b = 0
  · have hb0 : b = 0 := eq_zero_of_dot_self_eq_zero hb
    rw [hb0, dot_zero_right, dot_zero_right]
    ring
  · field_simp

theorem getD_mem_or_eq {α : Type} (l : List α) (i : ℕ) (d : α) :
    l.getD i d ∈ l ∨ l.getD i d = d := by
  by_cases h : i < l.length
  · left
    rw [List.getD_eq_getElem l d h]
    exact List.getElem_mem h
  · right
    exact List.getD_eq_default l d (le_of_not_lt h)

theorem getD_map_lt {α β : Type} (f : α → β) (l : List α) (i : ℕ) (d : α)
    (d' : β) (h : i < l.length) : (l.map f).getD i d' = f (l.getD i d) := by
  rw [List.getD_eq_getElem _ _ (by simpa using h), List.getElem_map,
    List.getD_eq_getElem _ _ h]

theorem conditionPass_preserve {R : ℕ} (c : Col R) (M : List (Col R)) (i : ℕ)
    (h : ∀ a ∈ M, dot a c = 0) :
    ∀ a ∈ conditionPass (M.getD i 0) M, dot a c = 0 := by
  intro a' ha'
  rcases List.mem_map.mp ha' with ⟨a, ha, rfl⟩
  rw [dot_sub_smul_left, h a ha]
  have hb : dot (M.getD i 0) c = 0 := by
    rcases getD_mem_or_eq M i 0 with hm | hz
    · exact h _ hm
    · rw [hz]
      exact dot_zero_left c
  rw [hb]
  ring

theorem conditionAll_preserve {R : ℕ} (c : Col R) :
    ∀ (idxs : List ℕ) (M : List (Col R)), (∀ a ∈ M, dot a c = 0) →
      ∀ a ∈ conditionAll M idxs, dot a c = 0 := by
  intro idxs
  induction idxs with
  | nil => intro M h a ha; exact h a ha
  | cons i rest ih =>
    intro M h a ha
    exact ih _ (conditionPass_preserve c M i h) a ha

theorem conditionAll_stage_ortho {R : ℕ} :
    ∀ (idxs : List ℕ) (M : List (Col R)) (a : Col R),
      a ∈ conditionAll M idxs → ∀ c ∈ stageVecs M idxs, dot a c = 0 := by
  intro idxs
  induction idxs with
  | nil => intro M a _ c hc; simp [stageVecs] at hc
  | cons i rest ih =>
    intro M a ha c hc
    simp only [stageVecs, List.mem_cons] at hc
    rcases hc with rfl | hc'
    · exact conditionAll_preserve _ rest _ (conditionPass_ortho _ M) a ha
    · exact ih _ a ha c hc'

theorem dot_eq_zero_of_mem_span {R : ℕ} (a : Col R) (S : Set (Col R))
    (hS : ∀ c ∈ S, dot a c = 0) (v : Col R)
    (hv : v ∈ Submodule.span ℚ S) : dot a v = 0 := by
  induction hv using Submodule.span_induction with
  | mem x hx => exact hS x hx
  | zero => exact dot_zero_right a
  | add x y hx hy ihx ihy => rw [dot_add_right, ihx, ihy, add_zero]
  | smul t x hx ihx => rw [dot_smul_right, ihx, mul_zero]

theorem orig_getD_mem_span {R : ℕ} :
    ∀ (idxs : List ℕ) (M : List (Col R)) (t : ℕ), t < idxs.length →
      M.getD (idxs.getD t 0) 0
        ∈ Submodule.span ℚ {v | v ∈ stageVecs M idxs} := by
  intro idxs
  induction idxs with
  | nil => intro M t ht; simp at ht
  | cons i rest ih =>
    intro M t ht
    match t with
    | 0 =>
      apply Submodule.subset_span
      show M.getD i 0 ∈ {v | v ∈ stageVecs M (i :: rest)}
      simp [stageVecs]
    | Nat.succ t =>
      have hlt : t < rest.length := by
        simpa using ht
      have hsub := ih (conditionPass (M.getD i 0) M) t hlt
      have hdecomp : M.getD ((i :: rest).getD (t + 1) 0) 0
          = (conditionPass (M.getD i 0) M).getD (rest.getD t 0) 0
            + (dot (M.getD (rest.getD t 0) 0) (M.getD i 0)
                / dot (M.getD i 0) (M.getD i 0)) • M.getD i 0 := by
        rw [List.getD_cons_succ]
        by_cases hjlen : rest.getD t 0 < M.length
        · have hmap : (conditionPass (M.getD i 0) M).getD (rest.getD t 0) 0
              = M.getD (rest.getD t 0) 0
                - (dot (M.getD (rest.getD t 0) 0) (M.getD i 0)
                    / dot (M.getD i 0) (M.getD i 0)) • M.getD i 0 :=
            getD_map_lt _ M (rest.getD t 0) 0 0 hjlen
          rw [hmap, sub_add_cancel]
        · have hM : M.getD (rest.getD t 0) 0 = 0 :=
            List.getD_eq_default M (0 : Col R) (le_of_not_lt hjlen)
          have hM' : (conditionPass (M.getD i 0) M).getD (rest.getD t 0) 0 = 0 := by
            apply List.getD_eq_default
            simpa [conditionPass] using le_of_not_lt hjlen
          rw [hM, hM', dot_zero_left, zero_div, zero_smul, add_zero]
      rw [hdecomp]
      have hspan' : Submodule.span ℚ {v | v ∈ stageVecs (conditionPass (M.getD i 0) M) rest}
          ≤ Submodule.span ℚ {v | v ∈ stageVecs M (i :: rest)} := by
        apply Submodule.span_mono
        intro v hv
        simp only [Set.mem_setOf_eq, stageVecs, List.mem_cons]
        exact Or.inr hv
      refine Submodule.add_mem _ (hspan' hsub)
        (Submodule.smul_mem _ _ (Submodule.subset_span ?_))
      show M.getD i 0 ∈ {v | v ∈ stageVecs M (i :: rest)}
      simp [stageVecs]

theorem removeColumns_subset {α : Type} (idxs : List ℕ) (l : List α) :
    ∀ a ∈ removeColumns idxs l, a ∈ l := by
  intro a ha
  rcases List.mem_map.mp ha with ⟨p, hp, rfl⟩
  have hp' := (List.mem_filter.mp hp).1
  rw [List.enum_eq_zip_range] at hp'
  exact (List.of_mem_zip hp').2

theorem not_mem_removeColumns (l : List String) (idxs : List ℕ) (j : ℕ)
    (hnd : l.Nodup) (hj : j < l.length) (hjin : j ∈ idxs) :
    l.getD j "" ∉ removeColumns idxs l := by
  intro hmem
  rcases List.mem_map.mp hmem with ⟨p, hp, hpv⟩
  have hfil := List.mem_filter.mp hp
  have henum := List.mem_enum_iff_getElem?.mp hfil.1
  have hnotin : p.1 ∉ idxs := by simpa using hfil.2
  have hp1len : p.1 < l.length := by
    rcases List.getElem?_eq_some_iff.mp henum with ⟨hlt, _⟩
    exact hlt
  rcases List.getElem?_eq_some_iff.mp henum with ⟨hlt, hval⟩
  have hgets : l.get ⟨p.1, hp1len⟩ = l.get ⟨j, hj⟩ := by
    have h1 : l.get ⟨p.1, hp1len⟩ = p.2 := by
      simpa [List.get_eq_getElem] using hval
    have h2 : l.getD j "" = l.get ⟨j, hj⟩ := by
      rw [List.getD_eq_getElem l "" hj, List.get_eq_getElem]
    rw [h1, hpv, h2]
  have : p.1 = j := by
    have := (List.Nodup.get_inj_iff hnd).mp hgets
    simpa using this
  exact hnotin (this ▸ hjin)

/-- C6: in quantitative mode, after `condition` with condition names `B`
(all present among the column names), every surviving column `a` of the
result satisfies `a · b = 0` — over exact arithmetic — for every original
condition column `b` of the matrix, and the condition columns are removed
from the matrix and from the column-name sequence (witnessed here by the
condition names being absent from the output names). -/
theorem c6_condition_orthogonal {R : ℕ} (M : List (Col R))
    (colNames condNames : List String) (hnd : colNames.Nodup)
    (hfound : ∀ nm ∈ condNames, nm ∈ colNames) :
    (∀ a ∈ (condition M colNames condNames).1, ∀ nm ∈ condNames,
      dot a (M.getD (condIdx colNames nm) 0) = 0)
    ∧ (∀ nm ∈ condNames, nm ∉ (condition M colNames condNames).2) := by
  constructor
  · intro a ha nm hnm
    have ha' : a ∈ conditionAll M (condNames.map (condIdx colNames)) :=
      removeColumns_subset _ _ a ha
    have hstage := conditionAll_stage_ortho _ M a ha'
    rcases List.mem_iff_get.mp hnm with ⟨t, rfl⟩
    have htlt : (t : ℕ) < (condNames.map (condIdx colNames)).length := by
      simpa using t.isLt
    have hgetd : (condNames.map (condIdx colNames)).getD (t : ℕ) 0
        = condIdx colNames (condNames.get t) := by
      rw [List.getD_eq_getElem _ _ htlt, List.getElem_map]
      rfl
    have hspan := orig_getD_mem_span (condNames.map (condIdx colNames)) M
      (t : ℕ) htlt
    rw [hgetd] at hspan
    exact dot_eq_zero_of_mem_span a _ hstage _ hspan
  · intro nm hnm
    have hidx : condIdx colNames nm < colNames.length := by
      simpa [condIdx] using List.indexOf_lt_length.mpr (hfound nm hnm)
    have hval : colNames.getD (condIdx colNames nm) "" = nm := by
      rw [List.getD_eq_getElem _ _ hidx]
      simpa [condIdx, List.get_eq_getElem] using
        List.indexOf_get (List.indexOf_lt_length.mpr (hfound nm hnm))
    have habs := not_mem_removeColumns colNames (condNames.map (condIdx colNames))
      (condIdx colNames nm) hnd hidx
      (List.mem_map_of_mem (condIdx colNames) hnm)
    rw [hval] at habs
    exact habs

theorem c6_condition_orthogonal_witness :
    (["A", "B"] : List String).Nodup
    ∧ (∀ nm ∈ ["B"], nm ∈ ["A", "B"])
    ∧ ((∀ a ∈ (condition [![(1 : ℚ), 1], ![1, 0]] ["A", "B"] ["B"]).1,
          ∀ nm ∈ ["B"],
          dot a ([![(1 : ℚ), 1], ![1, 0]].getD (condIdx ["A", "B"] nm) 0) = 0)
      ∧ (∀ nm ∈ ["B"],
          nm ∉ (condition [![(1 : ℚ), 1], ![1, 0]] ["A", "B"] ["B"]).2)) :=
  ⟨by decide, by decide,
    c6_condition_orthogonal [![(1 : ℚ), 1], ![1, 0]] ["A", "B"] ["B"]
      (by decide) (by decide)⟩

theorem c1_pvalue_invariant_witness :
    (calculate_pvalues_column 1 (fun _ => true) 25 1000).1
      = (((calculate_pvalues_column 1 (fun _ => true) 25 1000).2.1 : ℚ) + 1)
        / (((calculate_pvalues_column 1 (fun _ => true) 25 1000).2.2 : ℚ) + 1)
    ∧ (calculate_pvalues_column 1 (fun _ => true) 25 1000).2.1
        ≤ (calculate_pvalues_column 1 (fun _ => true) 25 1000).2.2
    ∧ (calculate_pvalues_column 1 (fun _ => true) 25 1000).2.2 ≤ max 100 1000 :=
  c1_pvalue_invariant 1 (fun _ => true) 25 1000

theorem c7_quantitative_single_trivial_witness :
    score_quantitative_single id
        (fun r _ => [(1 : ℚ)/4, 2/4, 3/4, 1].getD r 0) 0 [[0]]
      = id ((1 : ℚ)/4) :=
  c7_quantitative_single_trivial id

end Snpsea
